import Mathlib

/-!
Shallow embedding of the content-resolution core of psst
(`src/psst-core/src/metadata.rs`) together with the identifier model it
consumes, and proofs of the spec's claims about it.

Raw byte sequences are modelled as `List Nat` (each element one byte),
country codes as the byte lists of the two-letter strings, and the Rust
`Option` as Lean's `Option`.  The collaborators that live outside `src/`
(the identifier model of `item_id.rs`, the protobuf message field types and
the format-compatibility table of `audio_file.rs`) are modelled from the
spec where needed; each such definition says so in its doc comment.
-/

namespace Psst

/-- Modelled from the spec: the kind tag of an `ItemId`, distinguishing
tracks from other catalog entities (spec section 3; `ItemIdType` lives in
`item_id.rs`, outside `src/`).  Only `track` is exercised. -/
inductive ItemIdType where
  | track
  | album
  | artist
  | unknown
deriving DecidableEq, Repr

/-- Modelled from the spec: `ItemId`, an opaque identifier built from raw
bytes plus a kind tag, immutable once constructed (spec sections 3 and 4.1;
declared in `item_id.rs`, outside `src/`). -/
structure ItemId where
  raw : List Nat
  idType : ItemIdType
deriving DecidableEq, Repr

/-- Modelled from the spec: `ItemId::from_raw` fails (returns absent) when
the byte sequence is empty, otherwise wraps the bytes with the kind tag
(spec section 4.1). -/
def ItemId.from_raw (bytes : List Nat) (t : ItemIdType) : Option ItemId :=
  if bytes.isEmpty then none else some ⟨bytes, t⟩

/-- Modelled from the spec: `FileId`, the opaque identifier of one encoded
audio variant, raw bytes and no kind tag (spec sections 3 and 4.1). -/
structure FileId where
  raw : List Nat
deriving DecidableEq, Repr

/-- Modelled from the spec: `FileId::from_raw`, same contract as
`ItemId::from_raw` without the kind tag (spec section 4.1). -/
def FileId.from_raw (bytes : List Nat) : Option FileId :=
  if bytes.isEmpty then none else some ⟨bytes⟩

/-- Modelled from the spec: the lowercase hexadecimal digit alphabet of the
base16 rendering (spec sections 4.1 and 6). -/
def hexAlphabet : List Char := String.toList "0123456789abcdef"

/-- Modelled from the spec: one byte rendered as exactly two lowercase hex
digits (natural byte-to-hex expansion, no padding beyond it). -/
def byteToHex (b : Nat) : List Char :=
  [hexAlphabet.getD (b / 16 % 16) 'x', hexAlphabet.getD (b % 16) 'x']

/-- Modelled from the spec: `ItemId::to_base16`, the deterministic lowercase
hex encoding of the raw bytes, used verbatim in remote addresses (spec
section 4.1). -/
def ItemId.to_base16 (id : ItemId) : List Char :=
  (id.raw.map byteToHex).flatten

/-- The track metadata address of `impl Fetch for Track`
(`metadata.rs` lines 18-22): the fixed prefix followed by the identifier's
base16 rendering. -/
def Track.uri (id : ItemId) : String :=
  "hm://metadata/3/track/" ++ String.mk id.to_base16

/-- Modelled from the spec: `AudioFormat`, the enumerated codec+bitrate
variants (spec section 3; the enum is generated protobuf code outside
`src/`).  The claims are insensitive to the exact constructor set. -/
inductive AudioFormat where
  | oggVorbis96
  | oggVorbis160
  | oggVorbis320
  | mp3_96
  | mp3_160
  | mp3_256
  | mp3_320
deriving DecidableEq, Repr

/-- Protobuf message `AudioFile`, one encoded variant attached to a track,
as consumed in `metadata.rs` lines 49-55: optional raw file-identifier bytes
and optional format (the field declarations are generated code outside
`src/`; modelled from the spec's "each: format + file identifier", every
field optional). -/
structure AudioFile where
  file_id : Option (List Nat)
  format : Option AudioFormat
deriving DecidableEq, Repr

/-- Protobuf message `Restriction`, one rule attached to a track, as
consumed in `metadata.rs` lines 66-81: an optional countries-allowed list
and an optional countries-forbidden list, each a flat byte sequence of
two-letter codes (the Rust fields are optional strings, modelled here by
their byte sequences). -/
structure Restriction where
  countries_allowed : Option (List Nat)
  countries_forbidden : Option (List Nat)
deriving DecidableEq, Repr

/-- Protobuf message `Track` as consumed in `metadata.rs`: optional raw
identifying bytes, file variants, restriction rules, alternative tracks and
an optional duration in milliseconds.  The duration's signedness is the
protobuf declaration's (generated code outside `src/`), modelled as a
mathematical integer. -/
inductive Track where
  | mk (gid : Option (List Nat)) (file : List AudioFile)
      (restriction : List Restriction) (alternative : List Track)
      (duration : Option Int)

/-- Field accessor: the track's raw identifying bytes. -/
def Track.gid : Track → Option (List Nat)
  | .mk g _ _ _ _ => g

/-- Field accessor: the track's file variants. -/
def Track.file : Track → List AudioFile
  | .mk _ f _ _ _ => f

/-- Field accessor: the track's restriction rules. -/
def Track.restriction : Track → List Restriction
  | .mk _ _ r _ _ => r

/-- Field accessor: the track's alternative tracks. -/
def Track.alternative : Track → List Track
  | .mk _ _ _ a _ => a

/-- Field accessor: the track's duration in milliseconds. -/
def Track.duration : Track → Option Int
  | .mk _ _ _ _ d => d

/-- Rust slice iterator `chunks(2)` as used in `metadata.rs` line 84:
consecutive chunks of two elements, the last chunk possibly a single
element when the length is odd. -/
def chunks2 {α : Type} : List α → List (List α)
  | [] => []
  | [a] => [[a]]
  | a :: b :: rest => [a, b] :: chunks2 rest

/-- Function `is_country_in_list` (`metadata.rs` lines 83-85): the country
is found when some chunk of two bytes equals the country's bytes. -/
def is_country_in_list (countries country : List Nat) : Bool :=
  (chunks2 countries).any (fun code => code == country)

/-- Function `is_restricted_in_region` on one rule (`metadata.rs` lines
66-81): an empty allowed list is a hard block; a non-empty allowed list
containing the country is an early permit; otherwise the forbidden list
decides. -/
def is_restricted_in_region (restriction : Restriction) (country : List Nat) : Bool :=
  let forbiddenSays :=
    match restriction.countries_forbidden with
    | some forbidden => is_country_in_list forbidden country
    | none => false
  match restriction.countries_allowed with
  | some allowed =>
      if allowed.isEmpty then true
      else if is_country_in_list allowed country then false
      else forbiddenSays
  | none => forbiddenSays

/-- Method `Track::is_restricted_in_region` (`metadata.rs` lines 31-35):
restricted when any rule restricts. -/
def Track.is_restricted_in_region (t : Track) (country : List Nat) : Bool :=
  t.restriction.any (fun rest => Psst.is_restricted_in_region rest country)

/-- Method `Track::find_allowed_alternative` (`metadata.rs` lines 37-43):
the identifier of the first alternative not restricted in the country. -/
def Track.find_allowed_alternative (t : Track) (country : List Nat) : Option ItemId := do
  let alt ← t.alternative.find? (fun a => !(a.is_restricted_in_region country))
  let g ← alt.gid
  ItemId.from_raw g ItemIdType.track

/-- The file-variant selection step of `Track::to_audio_path`
(`metadata.rs` lines 46-52): `find_map` over the compatibility-ordered
format list, searching the track's files for the first one whose format
equals the candidate.  The list parameter stands for the external
collaborator's `AudioFile::compatible_audio_formats(preferred_bitrate)`
(spec section 6), which the resolver treats as a given priority list. -/
def select_file (compatible_formats : List AudioFormat) (t : Track) : Option AudioFile :=
  compatible_formats.findSome? (fun preferred_format =>
    t.file.find? (fun f => f.format == some preferred_format))

/-- The Rust cast `as u64` applied to the signed duration
(`metadata.rs` line 56): two's-complement reinterpretation, i.e. reduction
modulo 2 ^ 64. -/
def toU64 (v : Int) : Nat := (v % ((2 : Int) ^ 64)).toNat

/-- Modelled from the spec: `AudioPath`, the fully resolved descriptor with
all four fields mandatory (spec section 3; declared in `audio_file.rs`,
outside `src/`).  The `Duration` is kept as its unsigned 64-bit millisecond
count. -/
structure AudioPath where
  item_id : ItemId
  file_id : FileId
  file_format : AudioFormat
  duration : Nat
deriving DecidableEq, Repr

/-- Method `Track::to_audio_path` (`metadata.rs` lines 45-63),
parameterized by the collaborator's compatibility-ordered format list. -/
def Track.to_audio_path (compatible_formats : List AudioFormat) (t : Track) :
    Option AudioPath := do
  let file ← select_file compatible_formats t
  let file_format ← file.format
  let g ← t.gid
  let item_id ← ItemId.from_raw g ItemIdType.track
  let fi ← file.file_id
  let file_id ← FileId.from_raw fi
  let d ← t.duration
  some ⟨item_id, file_id, file_format, toU64 d⟩

/-- Modelled from the spec: the selection loop in the spec's own words
(section 4.4 step 2) — walk the compatibility list in order; for each
candidate format, in order, take the first file variant whose format equals
the candidate; stop at the first (format, file-variant) pair found. -/
def spec_select_variant : List AudioFormat → List AudioFile → Option (AudioFormat × AudioFile)
  | [], _ => none
  | c :: rest, files =>
    match files.find? (fun f => f.format == some c) with
    | some f => some (c, f)
    | none => spec_select_variant rest files

/-- C1: a rule whose countries-allowed list is present and empty restricts
every country, whatever the forbidden list holds. -/
theorem c1_empty_allowed_blocks_all (r : Restriction) (country : List Nat)
    (h : r.countries_allowed = some []) :
    is_restricted_in_region r country = true := by
  simp [is_restricted_in_region, h]

theorem c1_empty_allowed_blocks_all_witness :
    is_restricted_in_region (Restriction.mk (some []) (some [85, 83])) [85, 83] = true :=
  c1_empty_allowed_blocks_all (Restriction.mk (some []) (some [85, 83])) [85, 83] rfl


theorem itemId_from_raw_eq_some {bytes : List Nat} {k : ItemIdType} {x : ItemId} :
    ItemId.from_raw bytes k = some x ↔ bytes ≠ [] ∧ x = ⟨bytes, k⟩ := by
  constructor
  · intro h
    by_cases hb : bytes = []
    · subst hb; simp [ItemId.from_raw] at h
    · have hne : bytes.isEmpty = false := by simpa [List.isEmpty_iff] using hb
      rw [ItemId.from_raw, hne] at h
      simp at h
      exact ⟨hb, h.symm⟩
  · rintro ⟨hb, rfl⟩
    have hne : bytes.isEmpty = false := by simpa [List.isEmpty_iff] using hb
    rw [ItemId.from_raw, hne]
    simp

theorem fileId_from_raw_eq_some {bytes : List Nat} {x : FileId} :
    FileId.from_raw bytes = some x ↔ bytes ≠ [] ∧ x = ⟨bytes⟩ := by
  constructor
  · intro h
    by_cases hb : bytes = []
    · subst hb; simp [FileId.from_raw] at h
    · have hne : bytes.isEmpty = false := by simpa [List.isEmpty_iff] using hb
      rw [FileId.from_raw, hne] at h
      simp at h
      exact ⟨hb, h.symm⟩
  · rintro ⟨hb, rfl⟩
    have hne : bytes.isEmpty = false := by simpa [List.isEmpty_iff] using hb
    rw [FileId.from_raw, hne]
    simp

theorem spec_select_variant_eq_some {cf : List AudioFormat} {files : List AudioFile}
    {c : AudioFormat} {f : AudioFile}
    (h : spec_select_variant cf files = some (c, f)) :
    c ∈ cf ∧ files.find? (fun x => x.format == some c) = some f := by
  induction cf with
  | nil => simp [spec_select_variant] at h
  | cons c0 rest ih =>
    rw [spec_select_variant] at h
    cases hfind : files.find? (fun x => x.format == some c0) with
    | some f0 =>
      simp only [hfind, Option.some.injEq, Prod.mk.injEq] at h
      obtain ⟨rfl, rfl⟩ := h
      exact ⟨List.mem_cons_self _ _, hfind⟩
    | none =>
      simp only [hfind] at h
      obtain ⟨hmem, hfnd⟩ := ih h
      exact ⟨List.mem_cons_of_mem _ hmem, hfnd⟩

theorem find?_format_eq {files : List AudioFile} {c : AudioFormat} {f : AudioFile}
    (h : files.find? (fun x => x.format == some c) = some f) :
    f.format = some c := by
  have hp := List.find?_some h
  simpa using hp

theorem select_file_eq_spec (cf : List AudioFormat) (t : Track) :
    select_file cf t = Option.map Prod.snd (spec_select_variant cf t.file) := by
  induction cf with
  | nil => rfl
  | cons c rest ih =>
    rw [select_file, List.findSome?_cons]
    rw [select_file] at ih
    rw [spec_select_variant]
    cases hfind : t.file.find? (fun f => f.format == some c) with
    | some f0 => simp [hfind]
    | none => simp only [hfind]; exact ih

theorem to_audio_path_eq_some {cf : List AudioFormat} {t : Track} {p : AudioPath} :
    Track.to_audio_path cf t = some p ↔
      ∃ f g fi d, select_file cf t = some f
        ∧ f.format = some p.file_format
        ∧ t.gid = some g ∧ g ≠ [] ∧ p.item_id = ⟨g, ItemIdType.track⟩
        ∧ f.file_id = some fi ∧ fi ≠ [] ∧ p.file_id = ⟨fi⟩
        ∧ t.duration = some d ∧ p.duration = toU64 d := by
  simp only [Track.to_audio_path, Option.bind_eq_bind, Option.bind_eq_some,
    itemId_from_raw_eq_some, fileId_from_raw_eq_some, Option.some.injEq]
  constructor
  · rintro ⟨f, hsel, c, hfmt, g, hg, iid, ⟨hgne, rfl⟩, fi, hfi, fid, ⟨hfine, rfl⟩, d, hd, rfl⟩
    exact ⟨f, g, fi, d, hsel, hfmt, hg, hgne, rfl, hfi, hfine, rfl, hd, rfl⟩
  · rintro ⟨f, g, fi, d, hsel, hfmt, hg, hgne, hpid, hfi, hfine, hpfid, hd, hpdur⟩
    refine ⟨f, hsel, p.file_format, hfmt, g, hg, _, ⟨hgne, rfl⟩, fi, hfi, _, ⟨hfine, rfl⟩, d, hd, ?_⟩
    rw [← hpid, ← hpfid, ← hpdur]

theorem select_file_some_spec {cf : List AudioFormat} {t : Track} {f : AudioFile}
    (h : select_file cf t = some f) :
    ∃ c, spec_select_variant cf t.file = some (c, f) ∧ f.format = some c ∧ c ∈ cf := by
  have hspec := select_file_eq_spec cf t
  rw [h] at hspec
  cases hsv : spec_select_variant cf t.file with
  | none => rw [hsv] at hspec; simp at hspec
  | some pr =>
    obtain ⟨c0, f0⟩ := pr
    rw [hsv] at hspec
    simp at hspec
    subst hspec
    have hmf := spec_select_variant_eq_some hsv
    exact ⟨c0, rfl, find?_format_eq hmf.2, hmf.1⟩

/-- C2: under a present, non-empty countries-allowed list, membership in the
allowed list permits outright (the forbidden list is not consulted), and a
country missing from the allowed list is restricted exactly when a present
forbidden list contains it. -/
theorem c2_nonempty_allowed_precedence (r : Restriction) (l country : List Nat)
    (hp : r.countries_allowed = some l) (hne : l ≠ [])
    (_hlen : country.length = 2) :
    (is_country_in_list l country = true → is_restricted_in_region r country = false)
    ∧ (is_country_in_list l country = false →
        (is_restricted_in_region r country = true ↔
          ∃ forbidden, r.countries_forbidden = some forbidden ∧
            is_country_in_list forbidden country = true)) := by
  have hempty : l.isEmpty = false := by
    cases l with
    | nil => exact absurd rfl hne
    | cons a l2 => rfl
  constructor
  · intro hin
    simp [is_restricted_in_region, hp, hempty, hin]
  · intro hnin
    simp only [is_restricted_in_region, hp, hempty]
    cases hf : r.countries_forbidden with
    | none => simp [hnin]
    | some forbidden => simp [hnin]

theorem c2_nonempty_allowed_precedence_witness :
    (is_country_in_list [1, 2] [3, 4] = true →
      is_restricted_in_region (Restriction.mk (some [1, 2]) (some [3, 4])) [3, 4] = false)
    ∧ (is_country_in_list [1, 2] [3, 4] = false →
        (is_restricted_in_region (Restriction.mk (some [1, 2]) (some [3, 4])) [3, 4] = true ↔
          ∃ forbidden,
            (Restriction.mk (some [1, 2]) (some [3, 4])).countries_forbidden = some forbidden ∧
            is_country_in_list forbidden [3, 4] = true)) :=
  c2_nonempty_allowed_precedence (Restriction.mk (some [1, 2]) (some [3, 4])) [1, 2] [3, 4]
    rfl (by decide) (by decide)

/-- C6: the track-level check is an existential over the rule set, and a
track with no restriction rules is restricted nowhere. -/
theorem c6_restricted_iff_some_rule (t : Track) (country : List Nat) :
    (Track.is_restricted_in_region t country = true ↔
      ∃ r ∈ t.restriction, is_restricted_in_region r country = true)
    ∧ (t.restriction = [] → Track.is_restricted_in_region t country = false) := by
  constructor
  · simp [Track.is_restricted_in_region, List.any_eq_true]
  · intro h
    simp [Track.is_restricted_in_region, h]

/-- C3: the file variant is selected by walking the compatibility-ordered
format list, taking for each candidate in order the first file variant with
that format; the selection equals the spec's explicit walk, and a resolved
path carries the walk's format and its file's identifier. -/
theorem c3_selection_follows_format_priority (cf : List AudioFormat) (t : Track) :
    select_file cf t = Option.map Prod.snd (spec_select_variant cf t.file)
    ∧ ∀ p ∈ Track.to_audio_path cf t,
        ∃ c f2, spec_select_variant cf t.file = some (c, f2)
          ∧ p.file_format = c
          ∧ f2.file_id.bind FileId.from_raw = some p.file_id := by
  refine ⟨select_file_eq_spec cf t, ?_⟩
  intro p hp
  rw [Option.mem_def] at hp
  obtain ⟨f, g, fi, d, hsel, hfmt, hg, hgne, hpid, hfi, hfine, hpfid, hd, hpdur⟩ :=
    to_audio_path_eq_some.mp hp
  obtain ⟨c, hsv, hcfmt, hmem⟩ := select_file_some_spec hsel
  refine ⟨c, f, hsv, ?_, ?_⟩
  · have h3 := hfmt.symm.trans hcfmt
    exact Option.some.inj h3
  · rw [hfi]
    show FileId.from_raw fi = some p.file_id
    exact fileId_from_raw_eq_some.mpr ⟨hfine, hpfid⟩

/-- C9: the abort on an absent format of the matched file is unreachable —
a selected file always has a present format, and a resolved path's format is
the first compatibility-list entry with a matching variant, hence a member
of that list. -/
theorem c9_selected_format_present_and_compatible (cf : List AudioFormat) (t : Track) :
    (∀ f, select_file cf t = some f → f.format.isSome = true)
    ∧ ∀ p ∈ Track.to_audio_path cf t,
        ∃ c f, spec_select_variant cf t.file = some (c, f)
          ∧ f.format = some c ∧ p.file_format = c ∧ c ∈ cf := by
  constructor
  · intro f hsel
    obtain ⟨c, hsv, hcfmt, hmem⟩ := select_file_some_spec hsel
    rw [hcfmt]
    rfl
  · intro p hp
    rw [Option.mem_def] at hp
    obtain ⟨f, g, fi, d, hsel, hfmt, hg, hgne, hpid, hfi, hfine, hpfid, hd, hpdur⟩ :=
      to_audio_path_eq_some.mp hp
    obtain ⟨c, hsv, hcfmt, hmem⟩ := select_file_some_spec hsel
    have h3 := hfmt.symm.trans hcfmt
    exact ⟨c, f, hsv, hcfmt, Option.some.inj h3, hmem⟩

/-- C4: resolution succeeds exactly when a compatible file variant exists,
the track's raw bytes are present and non-empty, the matched file's raw
bytes are present and non-empty, and the duration is present; a returned
path has all four fields populated from them. -/
theorem c4_absence_aborts_resolution (cf : List AudioFormat) (t : Track) :
    ((Track.to_audio_path cf t).isSome = true ↔
      ∃ f, select_file cf t = some f
        ∧ (∃ g, t.gid = some g ∧ g ≠ [])
        ∧ (∃ fi, f.file_id = some fi ∧ fi ≠ [])
        ∧ t.duration.isSome = true)
    ∧ ∀ p ∈ Track.to_audio_path cf t,
        ∃ f g fi d c, select_file cf t = some f ∧ t.gid = some g ∧ f.file_id = some fi
          ∧ t.duration = some d ∧ f.format = some c
          ∧ p = ⟨⟨g, ItemIdType.track⟩, ⟨fi⟩, c, toU64 d⟩ := by
  constructor
  · rw [Option.isSome_iff_exists]
    constructor
    · rintro ⟨p, hp⟩
      obtain ⟨f, g, fi, d, hsel, hfmt, hg, hgne, hpid, hfi, hfine, hpfid, hd, hpdur⟩ :=
        to_audio_path_eq_some.mp hp
      exact ⟨f, hsel, ⟨g, hg, hgne⟩, ⟨fi, hfi, hfine⟩, by rw [hd]; rfl⟩
    · rintro ⟨f, hsel, ⟨g, hg, hgne⟩, ⟨fi, hfi, hfine⟩, hdur⟩
      obtain ⟨c, hsv, hcfmt, hmem⟩ := select_file_some_spec hsel
      obtain ⟨d, hd⟩ := Option.isSome_iff_exists.mp hdur
      exact ⟨⟨⟨g, ItemIdType.track⟩, ⟨fi⟩, c, toU64 d⟩,
        to_audio_path_eq_some.mpr ⟨f, g, fi, d, hsel, hcfmt, hg, hgne, rfl, hfi, hfine, rfl, hd, rfl⟩⟩
  · intro p hp
    rw [Option.mem_def] at hp
    obtain ⟨f, g, fi, d, hsel, hfmt, hg, hgne, hpid, hfi, hfine, hpfid, hd, hpdur⟩ :=
      to_audio_path_eq_some.mp hp
    refine ⟨f, g, fi, d, p.file_format, hsel, hg, hfi, hd, hfmt, ?_⟩
    rw [← hpid, ← hpfid, ← hpdur]

theorem find?_first_index {α : Type} (p : α → Bool) :
    ∀ (l : List α) (i : Nat) (hi : i < l.length),
      p (l.get ⟨i, hi⟩) = true →
      (∀ j (hj : j < i), p (l.get ⟨j, Nat.lt_trans hj hi⟩) = false) →
      l.find? p = some (l.get ⟨i, hi⟩)
  | [], i, hi, _, _ => absurd hi (Nat.not_lt_zero i)
  | a :: l, 0, _, hq, _ => by
      exact List.find?_cons_of_pos _ hq
  | a :: l, i + 1, hi, hq, hprev => by
      have ha : p a = false := hprev 0 (Nat.succ_pos i)
      rw [List.find?_cons_of_neg]
      · exact find?_first_index p l i (Nat.lt_of_succ_lt_succ hi) hq
          (fun j hj => hprev (j + 1) (Nat.succ_lt_succ hj))
      · simp [ha]

/-- C5: the alternatives are scanned in listed order; with no qualifying
alternative the result is absent, and at the first qualifying index the
result is exactly the identifier built from that alternative's raw bytes —
absent bytes or empty bytes give absence without continuing the scan. -/
theorem c5_first_allowed_alternative (t : Track) (country : List Nat) :
    ((∀ alt ∈ t.alternative, alt.is_restricted_in_region country = true) →
      Track.find_allowed_alternative t country = none)
    ∧ ∀ i (hi : i < t.alternative.length),
        (t.alternative.get ⟨i, hi⟩).is_restricted_in_region country = false →
        (∀ j (hj : j < i),
          (t.alternative.get ⟨j, Nat.lt_trans hj hi⟩).is_restricted_in_region country = true) →
        Track.find_allowed_alternative t country =
          ((t.alternative.get ⟨i, hi⟩).gid.bind
            (fun g => ItemId.from_raw g ItemIdType.track)) := by
  constructor
  · intro hall
    rw [Track.find_allowed_alternative]
    have hnone : t.alternative.find? (fun a => !(a.is_restricted_in_region country)) = none := by
      rw [List.find?_eq_none]
      intro x hx
      simp [hall x hx]
    rw [hnone]
    rfl
  · intro i hi hq hprev
    have hfind := find?_first_index (fun a => !(a.is_restricted_in_region country))
      t.alternative i hi (by simpa using hq) (fun j hj => by simpa using hprev j hj)
    rw [Track.find_allowed_alternative, hfind]
    rfl

/-- C10: a present negative duration does not abort resolution; the
resulting duration is the signed value reinterpreted as an unsigned 64-bit
count, i.e. the value modulo 2 ^ 64. -/
theorem c10_negative_duration_wraps (cf : List AudioFormat) (t : Track)
    (f : AudioFile) (g fi : List Nat) (d : Int)
    (hsel : select_file cf t = some f)
    (hg : t.gid = some g) (hgne : g ≠ [])
    (hfi : f.file_id = some fi) (hfine : fi ≠ [])
    (hd : t.duration = some d) (hneg : d < 0) (hrange : -(2 ^ 31) ≤ d) :
    ∃ p, Track.to_audio_path cf t = some p
      ∧ p.duration = (d % (2 : Int) ^ 64).toNat
      ∧ p.duration = (d + 2 ^ 64).toNat
      ∧ p.duration < 2 ^ 64 := by
  obtain ⟨c, hsv, hcfmt, hmem⟩ := select_file_some_spec hsel
  have hpow : (2 : Int) ^ 64 = 18446744073709551616 := by norm_num
  have hpowN : (2 : Nat) ^ 64 = 18446744073709551616 := by norm_num
  refine ⟨⟨⟨g, ItemIdType.track⟩, ⟨fi⟩, c, toU64 d⟩, ?_, ?_, ?_, ?_⟩
  · exact to_audio_path_eq_some.mpr
      ⟨f, g, fi, d, hsel, hcfmt, hg, hgne, rfl, hfi, hfine, rfl, hd, rfl⟩
  · rfl
  · have hrange2 : (-2147483648 : Int) ≤ d := by
      norm_num at hrange
      exact hrange
    show toU64 d = (d + 2 ^ 64).toNat
    rw [toU64, hpow]
    omega
  · show toU64 d < 2 ^ 64
    rw [toU64, hpow, hpowN]
    omega

theorem c10_negative_duration_wraps_witness :
    ∃ p, Track.to_audio_path [AudioFormat.oggVorbis320]
        (Track.mk (some [1]) [AudioFile.mk (some [2]) (some AudioFormat.oggVorbis320)]
          [] [] (some (-5))) = some p
      ∧ p.duration = ((-5 : Int) % (2 : Int) ^ 64).toNat
      ∧ p.duration = ((-5 : Int) + 2 ^ 64).toNat
      ∧ p.duration < 2 ^ 64 :=
  c10_negative_duration_wraps [AudioFormat.oggVorbis320]
    (Track.mk (some [1]) [AudioFile.mk (some [2]) (some AudioFormat.oggVorbis320)]
      [] [] (some (-5)))
    (AudioFile.mk (some [2]) (some AudioFormat.oggVorbis320)) [1] [2] (-5)
    rfl rfl (by decide) rfl (by decide) rfl (by decide) (by decide)

theorem chunks2_any_iff {c : List Nat} (hc : c.length = 2) :
    ∀ l : List Nat, (is_country_in_list l c = true ↔
      ∃ i, 2 * i + 2 ≤ l.length ∧ (l.drop (2 * i)).take 2 = c)
  | [] => by
      constructor
      · intro h
        simp [is_country_in_list, chunks2] at h
      · rintro ⟨i, hle, _⟩
        simp only [List.length_nil] at hle
        exact absurd hle (by omega)
  | [a] => by
      have hne : ([a] : List Nat) ≠ c := by
        intro h
        rw [← h] at hc
        simp at hc
      constructor
      · intro h
        simp [is_country_in_list, chunks2, hne] at h
      · rintro ⟨i, hle, _⟩
        simp only [List.length_cons, List.length_nil] at hle
        exact absurd hle (by omega)
  | a :: b :: rest => by
      have ih := chunks2_any_iff hc rest
      have hunfold : is_country_in_list (a :: b :: rest) c =
          (([a, b] == c) || is_country_in_list rest c) := rfl
      rw [hunfold]
      constructor
      · intro h
        cases Bool.or_eq_true_iff.mp h with
        | inl h1 =>
          refine ⟨0, ?_, ?_⟩
          · simp only [List.length_cons]
            omega
          · exact eq_of_beq h1
        | inr h2 =>
          obtain ⟨i, hle, heq⟩ := ih.mp h2
          refine ⟨i + 1, ?_, ?_⟩
          · simp only [List.length_cons] at hle ⊢
            omega
          · exact heq
      · rintro ⟨i, hle, heq⟩
        cases i with
        | zero =>
          exact Bool.or_eq_true_iff.mpr (Or.inl (beq_of_eq heq))
        | succ i2 =>
          refine Bool.or_eq_true_iff.mpr (Or.inr (ih.mpr ⟨i2, ?_, heq⟩))
          simp only [List.length_cons] at hle
          omega

theorem is_country_in_list_drop_trailing {c : List Nat} (hc : c.length = 2) :
    ∀ l : List Nat, l.length % 2 = 1 →
      is_country_in_list l c = is_country_in_list (l.take (2 * (l.length / 2))) c
  | [], h => by simp at h
  | [a], _ => by
      have hne : ([a] : List Nat) ≠ c := by
        intro h
        rw [← h] at hc
        simp at hc
      have h0 : 2 * (([a] : List Nat).length / 2) = 0 := by simp
      rw [h0, List.take_zero]
      simp [is_country_in_list, chunks2, hne]
  | a :: b :: rest, h => by
      have hr : rest.length % 2 = 1 := by
        simp only [List.length_cons] at h
        omega
      have ih := is_country_in_list_drop_trailing hc rest hr
      have hl : 2 * ((a :: b :: rest).length / 2) = 2 * (rest.length / 2) + 2 := by
        simp only [List.length_cons]
        omega
      rw [hl]
      show (([a, b] == c) || is_country_in_list rest c) =
        (([a, b] == c) || is_country_in_list (rest.take (2 * (rest.length / 2))) c)
      rw [ih]

/-- C7: a list with a trailing odd byte is handled without error — the
membership test holds exactly when some complete two-byte chunk (at an even
offset, fully inside the list) equals the country code, and the trailing
byte never matches: dropping it leaves the test unchanged. -/
theorem c7_odd_list_membership (countries country : List Nat)
    (hlen : country.length = 2) (hodd : countries.length % 2 = 1) :
    (is_country_in_list countries country = true ↔
      ∃ i, 2 * i + 2 ≤ countries.length ∧ (countries.drop (2 * i)).take 2 = country)
    ∧ is_country_in_list countries country =
        is_country_in_list (countries.take (2 * (countries.length / 2))) country :=
  ⟨chunks2_any_iff hlen countries, is_country_in_list_drop_trailing hlen countries hodd⟩

theorem c7_odd_list_membership_witness :
    ((is_country_in_list [1, 2, 3] [1, 2] = true ↔
      ∃ i, 2 * i + 2 ≤ ([1, 2, 3] : List Nat).length ∧
        (([1, 2, 3] : List Nat).drop (2 * i)).take 2 = [1, 2])
    ∧ is_country_in_list [1, 2, 3] [1, 2] =
        is_country_in_list (([1, 2, 3] : List Nat).take
          (2 * (([1, 2, 3] : List Nat).length / 2))) [1, 2]) :=
  c7_odd_list_membership [1, 2, 3] [1, 2] rfl rfl

theorem getD_mem_of_lt {α : Type} (l : List α) (n : Nat) (d : α) (h : n < l.length) :
    l.getD n d ∈ l := by
  rw [List.getD_eq_getElem?_getD, List.getElem?_eq_getElem h]
  exact List.get_mem l n h

theorem byteToHex_mem_alphabet (b : Nat) : ∀ ch ∈ byteToHex b, ch ∈ hexAlphabet := by
  intro ch hch
  have h1 : b / 16 % 16 < hexAlphabet.length := by
    have := Nat.mod_lt (b / 16) (show 0 < 16 by norm_num)
    simpa [hexAlphabet] using this
  have h2 : b % 16 < hexAlphabet.length := by
    have := Nat.mod_lt b (show 0 < 16 by norm_num)
    simpa [hexAlphabet] using this
  simp only [byteToHex, List.mem_cons, List.not_mem_nil, or_false] at hch
  rcases hch with h | h
  · rw [h]
    exact getD_mem_of_lt _ _ _ h1
  · rw [h]
    exact getD_mem_of_lt _ _ _ h2

theorem hexAlphabet_not_upper : ∀ ch ∈ hexAlphabet, ch.isUpper = false := by decide

/-- C8: the track metadata address is exactly the fixed prefix followed by
the lowercase hex rendering of the raw bytes; the rendering has twice the
raw byte length, contains only lowercase hex digits (no uppercase), and the
same raw bytes always yield the same address. -/
theorem c8_track_uri_base16 (id : ItemId) :
    Track.uri id = "hm://metadata/3/track/" ++ String.mk id.to_base16
    ∧ id.to_base16.length = 2 * id.raw.length
    ∧ (∀ ch ∈ id.to_base16, ch ∈ hexAlphabet ∧ ch.isUpper = false)
    ∧ ∀ id2 : ItemId, id.raw = id2.raw → Track.uri id = Track.uri id2 := by
  refine ⟨rfl, ?_, ?_, ?_⟩
  · obtain ⟨raw, k⟩ := id
    show ((raw.map byteToHex).flatten).length = 2 * raw.length
    induction raw with
    | nil => rfl
    | cons b bs ih =>
      simp only [List.map_cons, List.flatten_cons, List.length_append, List.length_cons, ih]
      rw [show (byteToHex b).length = 2 from rfl]
      omega
  · intro ch hch
    simp only [ItemId.to_base16, List.mem_flatten, List.mem_map] at hch
    obtain ⟨chunk, ⟨b, _, rfl⟩, hchin⟩ := hch
    have hmem := byteToHex_mem_alphabet b ch hchin
    exact ⟨hmem, hexAlphabet_not_upper ch hmem⟩
  · intro id2 h
    rw [Track.uri, Track.uri, ItemId.to_base16, ItemId.to_base16, h]

end Psst
